import Mathlib

/-!
Verification of `src/merge_excel.py`, a pipeline that outer-joins two
spreadsheet tables on a normalized key column, tags every row with its
provenance, builds an ordered category summary, and writes the result.

The embedding models a pandas data frame as ordered column names plus rows of
tagged cells, and each function of the script as a Lean function over that
model.
-/

namespace MergeExcel

/-- A spreadsheet cell as pandas sees it: text, a number, or a missing value
(pandas `NaN`). -/
inductive Cell where
  | text (s : String)
  | num (n : Int)
  | absent
deriving DecidableEq, Repr

/-- A data frame: ordered column names, and rows of cells aligned with the
columns by position. -/
structure Table where
  cols : List String
  rows : List (List Cell)
deriving DecidableEq, Repr

/-- Well-formedness: every row has exactly one cell per column. -/
def Table.WF (t : Table) : Prop := ∀ r ∈ t.rows, r.length = t.cols.length

instance (t : Table) : Decidable t.WF :=
  List.decidableBAll _ t.rows

/-- How pandas `astype(str)` renders a scalar cell: text is unchanged,
numbers print in decimal form, and a missing value becomes the literal
text "nan". -/
def cellToStr : Cell → String
  | Cell.text s => s
  | Cell.num n => toString n
  | Cell.absent => "nan"

/-- Removing leading and trailing whitespace characters from a character
list: Python `str.strip()` on the underlying characters. -/
def stripChars (l : List Char) : List Char :=
  ((l.dropWhile Char.isWhitespace).reverse.dropWhile Char.isWhitespace).reverse

/-- Python `str.strip()`: the string with surrounding whitespace removed. -/
def strip (s : String) : String := String.mk (stripChars s.data)

/-- `ensure_key_column(df, key)`: raises a `KeyError` naming the key and
listing all available column names when `key` is not among the columns;
otherwise does nothing. -/
def ensure_key_column (df : Table) (key : String) : Except String Unit :=
  if key ∈ df.cols then Except.ok ()
  else Except.error
    ("Coluna-chave \x27" ++ key ++ "\x27 não encontrada. Colunas disponíveis: "
      ++ String.intercalate ", " df.cols)

/-- Position of the key column: the first column whose (trimmed) name equals
`key` (pandas label selection, resolved to an index). -/
def keyIdx (t : Table) (key : String) : Nat := t.cols.findIdx (fun c => c = key)

/-- `normalize_key_column_as_string(df, key)`:
`df[key] = df[key].astype(str).str.strip()` — every cell of the key column is
replaced by its string form with surrounding whitespace removed. -/
def normalize_key_column_as_string (df : Table) (key : String) : Table :=
  { df with rows := df.rows.map (fun r =>
      r.set (keyIdx df key)
        (Cell.text (strip (cellToStr (r.getD (keyIdx df key) Cell.absent))))) }

/-- The key values of a table, row by row. -/
def keyVals (t : Table) (key : String) : List Cell :=
  t.rows.map (fun r => r.getD (keyIdx t key) Cell.absent)

/-- `pd.merge(left_df, right_df, on=key, how="outer", indicator=True,
suffixes=("_left", "_right"))`.

Columns: the left columns in order, where a non-key name also present on the
right gains the `_left` suffix; then the right columns without the key
column, where a name also present on the left gains `_right`; then the
indicator column `_merge`.

Rows: each left row paired with every right row sharing its key value
(indicator `both`), or padded with missing right cells when no right row
matches (`left_only`); then every right row whose key matches no left row,
padded with missing left cells (`right_only`). -/
def pd_merge_outer (left right : Table) (key : String) : Table :=
  let iL := keyIdx left key
  let iR := keyIdx right key
  let outCols :=
    (left.cols.map (fun c => if c ≠ key ∧ c ∈ right.cols then c ++ "_left" else c))
      ++ ((right.cols.eraseIdx iR).map
            (fun c => if c ∈ left.cols then c ++ "_right" else c))
      ++ ["_merge"]
  let lKeys := left.rows.map (fun r => r.getD iL Cell.absent)
  let matched := left.rows.flatMap (fun lr =>
    let k := lr.getD iL Cell.absent
    let ms := right.rows.filter (fun rr => rr.getD iR Cell.absent = k)
    if ms.isEmpty then
      [lr ++ List.replicate (right.cols.length - 1) Cell.absent
          ++ [Cell.text "left_only"]]
    else
      ms.map (fun rr => lr ++ rr.eraseIdx iR ++ [Cell.text "both"]))
  let rightOnly := (right.rows.filter
      (fun rr => ¬ rr.getD iR Cell.absent ∈ lKeys)).map
    (fun rr =>
      (List.replicate left.cols.length Cell.absent).set iL (rr.getD iR Cell.absent)
        ++ rr.eraseIdx iR ++ [Cell.text "right_only"])
  { cols := outCols, rows := matched ++ rightOnly }

/-- `category_order.get(c, 99)` of `build_summary`: `both` at 0, `left_only`
at 1, `right_only` at 2, every other tag at 99. -/
def categoryOrd (c : String) : Nat :=
  if c = "both" then 0
  else if c = "left_only" then 1
  else if c = "right_only" then 2
  else 99

/-- The sort key of `sort_values(["ord", "categoria"])`: precedence number
first, category name (alphabetically) as tie-break. -/
def summaryLE (a b : String × Nat) : Bool :=
  if categoryOrd a.1 < categoryOrd b.1 then true
  else if categoryOrd b.1 < categoryOrd a.1 then false
  else decide (a.1 ≤ b.1)

/-- Insertion into a sorted list, for the sort below. -/
def insertSorted (le : α → α → Bool) (a : α) : List α → List α
  | [] => [a]
  | b :: bs => if le a b then a :: b :: bs else b :: insertSorted le a bs

/-- Insertion sort; the embedding of `sort_values` with a total sort key. -/
def sortByLE (le : α → α → Bool) : List α → List α
  | [] => []
  | a :: as => insertSorted le a (sortByLE le as)

/-- The dtype of the `_merge` column that `pd.merge(..., indicator=True)`
produces: a Categorical whose categories are exactly these three, in this
order. -/
def indicatorCategories : List String := ["left_only", "right_only", "both"]

/-- `Series.value_counts(dropna=False)` on a categorical series: one
(value, count) row per category of the dtype — including categories that do
not occur, which get count 0. (Its count-descending order is irrelevant
here: `build_summary` re-sorts the rows by a total key.) -/
def value_counts (cats tags : List String) : List (String × Nat) :=
  cats.map (fun c => (c, tags.count c))

/-- `build_summary(df_merged)`, applied to the `_merge` indicator column:
`value_counts(dropna=False)` on the categorical column yields one
(categoria, quantidade) pair per category of the dtype, zero counts
included, and the pairs are then fully reordered by (precedence, name). -/
def build_summary (tags : List String) : List (String × Nat) :=
  sortByLE summaryLE (value_counts indicatorCategories tags)

/-- The two filesystem effects `save_to_excel` can attempt, in order. -/
inductive FsAction where
  | mkdirParents
  | writeExcel
deriving DecidableEq, Repr

/-- Errors escaping `save_to_excel`: an unwrapped failure of the directory
creation that runs outside the `try`, or the `RuntimeError` carrying the
output path that wraps a failure of the Excel-writing block. -/
inductive SaveError where
  | mkdirFailure (e : String)
  | writeFailure (outputPath : String) (e : String)
deriving DecidableEq, Repr

/-- `save_to_excel(df_merged, df_summary, output_path)`:
`output_path.parent.mkdir(parents=True, exist_ok=True)` runs first and
outside the `try`; only the `ExcelWriter` block is inside it, and its failure
is re-raised as a `RuntimeError` mentioning `output_path`. The two `Except`
arguments stand for the outcomes the filesystem and the Excel writer would
produce; the result records which actions were attempted, in order, and the
final outcome. -/
def save_to_excel (mkdirResult writeResult : Except String Unit)
    (outputPath : String) : List FsAction × Except SaveError Unit :=
  match mkdirResult with
  | Except.error e => ([FsAction.mkdirParents], Except.error (SaveError.mkdirFailure e))
  | Except.ok () =>
    match writeResult with
    | Except.error e =>
      ([FsAction.mkdirParents, FsAction.writeExcel],
        Except.error (SaveError.writeFailure outputPath e))
    | Except.ok () =>
      ([FsAction.mkdirParents, FsAction.writeExcel], Except.ok ())

/-! ### List helper lemmas -/

/-- Writing back the element already stored at an index leaves a list
unchanged. -/
theorem set_getElem?_self {α : Type _} (l : List α) (i : Nat) (a : α)
    (h : l[i]? = some a) : l.set i a = l := by
  induction l generalizing i with
  | nil => simp at h
  | cons b bs ih =>
    cases i with
    | zero => simp at h; simp [List.set, h]
    | succ j => simp at h; simp [List.set, ih j h]

/-- A map that fixes every member of a list is the identity on it. -/
theorem map_id_of_mem {α : Type _} (l : List α) (f : α → α)
    (h : ∀ a ∈ l, f a = a) : l.map f = l := by
  induction l with
  | nil => rfl
  | cons b bs ih =>
    simp only [List.map_cons, h b (List.mem_cons_self b bs)]
    rw [ih (fun a ha => h a (List.mem_cons_of_mem b ha))]

/-! ### C6: missing-key error of `ensure_key_column` -/

/-- C6: `ensure_key_column` succeeds without effect exactly when the key is
among the table's columns, and otherwise fails with the missing-key error
listing all available column names. -/
theorem ensure_key_column_spec (df : Table) (key : String) :
    (ensure_key_column df key = Except.ok () ↔ key ∈ df.cols) ∧
    (key ∉ df.cols →
      ensure_key_column df key = Except.error
        ("Coluna-chave \x27" ++ key ++ "\x27 não encontrada. Colunas disponíveis: "
          ++ String.intercalate ", " df.cols)) := by
  unfold ensure_key_column
  by_cases h : key ∈ df.cols <;> simp [h]

/-- The claim's example tables: only their headers matter here. -/
def exLeftHeader : Table := { cols := ["MATRICULA", "NOME"], rows := [] }

/-- Right-hand example table of the claim, whose columns are ID and SETOR. -/
def exRightHeader : Table := { cols := ["ID", "SETOR"], rows := [] }

/-- C6 witness: with key MATRICULA the left example passes and the right
example fails listing "ID, SETOR". -/
theorem ensure_key_column_spec_witness :
    ensure_key_column exLeftHeader "MATRICULA" = Except.ok () ∧
    ensure_key_column exRightHeader "MATRICULA" = Except.error
      "Coluna-chave \x27MATRICULA\x27 não encontrada. Colunas disponíveis: ID, SETOR" := by
  constructor
  · exact (ensure_key_column_spec exLeftHeader "MATRICULA").1.mpr (by decide)
  · rw [(ensure_key_column_spec exRightHeader "MATRICULA").2 (by decide)]
    rfl

/-! ### C7: key normalization maps cells to trimmed text, absent to "nan" -/

/-- C7: in a table containing the key column, normalization replaces each key
cell by the trimmed text of its pandas string form, and a missing cell
stringifies to the fixed literal "nan" — the same constant whichever input
table (left or right) is being normalized, since the same function is applied
to both. -/
theorem normalize_key_cell_spec (df : Table) (key : String)
    (hk : key ∈ df.cols) (j : Nat) (r : List Cell)
    (hr : df.rows[j]? = some r) (hlen : keyIdx df key < r.length) :
    ((normalize_key_column_as_string df key).rows[j]?.getD []).getD
        (keyIdx df key) Cell.absent
      = Cell.text (strip (cellToStr (r.getD (keyIdx df key) Cell.absent))) ∧
    cellToStr Cell.absent = "nan" := by
  refine ⟨?_, rfl⟩
  have h1 : (normalize_key_column_as_string df key).rows[j]?
      = some (r.set (keyIdx df key)
          (Cell.text (strip (cellToStr (r.getD (keyIdx df key) Cell.absent))))) := by
    unfold normalize_key_column_as_string
    simp [List.getElem?_map, hr]
  rw [h1]
  show (r.set (keyIdx df key) _).getD (keyIdx df key) Cell.absent = _
  rw [List.getD_eq_getElem?_getD, List.getElem?_set_self hlen]
  rfl

/-- C7 witness: a concrete three-row table with a text, an absent and a
numeric key cell. -/
theorem normalize_key_cell_spec_witness :
    (({ cols := ["MATRICULA"], rows := [[Cell.text " 7 "], [Cell.absent]] : Table}).rows[1]?
        = some [Cell.absent]) ∧
    ((normalize_key_column_as_string
        { cols := ["MATRICULA"], rows := [[Cell.text " 7 "], [Cell.absent]] }
        "MATRICULA").rows[1]?.getD []).getD
        (keyIdx { cols := ["MATRICULA"], rows := [[Cell.text " 7 "], [Cell.absent]] } "MATRICULA")
        Cell.absent
      = Cell.text "nan" := by
  refine ⟨rfl, ?_⟩
  have h := normalize_key_cell_spec
    { cols := ["MATRICULA"], rows := [[Cell.text " 7 "], [Cell.absent]] }
    "MATRICULA" (by decide) 1 [Cell.absent] rfl (by decide)
  rw [h.1]
  decide

/-! ### C8: normalization is a no-op on already-normalized key columns -/

/-- C8: if every key cell is already text with no surrounding whitespace,
normalization returns the table unchanged. -/
theorem normalize_key_noop (df : Table) (key : String)
    (h : ∀ r ∈ df.rows, ∃ s : String,
      r[keyIdx df key]? = some (Cell.text s) ∧ strip s = s) :
    normalize_key_column_as_string df key = df := by
  unfold normalize_key_column_as_string
  cases df with
  | mk cols rows =>
    simp only [Table.mk.injEq, true_and]
    apply map_id_of_mem
    intro r hr
    obtain ⟨s, hget, htrim⟩ := h r hr
    have hgd : r.getD (keyIdx { cols := cols, rows := rows } key) Cell.absent
        = Cell.text s := by
      rw [List.getD_eq_getElem?_getD, hget]; rfl
    rw [hgd]
    show r.set _ (Cell.text (strip s)) = r
    rw [htrim]
    exact set_getElem?_self r _ _ hget

/-- C8 witness: a concrete already-normalized table is fixed by
normalization. -/
theorem normalize_key_noop_witness :
    normalize_key_column_as_string
        { cols := ["MATRICULA", "NOME"],
          rows := [[Cell.text "1", Cell.text " Ana "], [Cell.text "2", Cell.absent]] }
        "MATRICULA"
      = { cols := ["MATRICULA", "NOME"],
          rows := [[Cell.text "1", Cell.text " Ana "], [Cell.text "2", Cell.absent]] } := by
  apply normalize_key_noop
  intro r hr
  simp only [List.mem_cons, List.not_mem_nil, or_false] at hr
  rcases hr with h | h <;> subst h
  · exact ⟨"1", rfl, by decide⟩
  · exact ⟨"2", rfl, by decide⟩

/-! ### C9: normalization only touches the key column -/

/-- C9: normalization keeps the column names (set and order), the number of
rows, and every cell outside the key column position. -/
theorem normalize_key_frame (df : Table) (key : String) (hk : key ∈ df.cols) :
    (normalize_key_column_as_string df key).cols = df.cols ∧
    (normalize_key_column_as_string df key).rows.length = df.rows.length ∧
    (∀ (j m : Nat), m ≠ keyIdx df key →
      ((normalize_key_column_as_string df key).rows[j]?.getD []).getD m Cell.absent
        = (df.rows[j]?.getD []).getD m Cell.absent) := by
  refine ⟨rfl, by simp [normalize_key_column_as_string], ?_⟩
  intro j m hm
  cases hr : df.rows[j]? with
  | none =>
    have h1 : (normalize_key_column_as_string df key).rows[j]? = none := by
      simp [normalize_key_column_as_string, List.getElem?_map, hr]
    rw [h1]
  | some r =>
    have h1 : (normalize_key_column_as_string df key).rows[j]?
        = some (r.set (keyIdx df key)
            (Cell.text (strip (cellToStr (r.getD (keyIdx df key) Cell.absent))))) := by
      simp [normalize_key_column_as_string, List.getElem?_map, hr]
    rw [h1]
    show (r.set (keyIdx df key) _).getD m Cell.absent = r.getD m Cell.absent
    rw [List.getD_eq_getElem?_getD, List.getD_eq_getElem?_getD,
      List.getElem?_set_ne (Ne.symm hm)]
    rw [List.getD_eq_getElem?_getD]

/-- C9 witness: at a concrete table, the non-key cell and the shape survive
normalization. -/
theorem normalize_key_frame_witness :
    ((normalize_key_column_as_string
        { cols := ["MATRICULA", "NOME"], rows := [[Cell.absent, Cell.text "Ana"]] }
        "MATRICULA").rows[0]?.getD []).getD 1 Cell.absent = Cell.text "Ana" ∧
    (normalize_key_column_as_string
        { cols := ["MATRICULA", "NOME"], rows := [[Cell.absent, Cell.text "Ana"]] }
        "MATRICULA").cols = ["MATRICULA", "NOME"] := by
  have h := normalize_key_frame
    { cols := ["MATRICULA", "NOME"], rows := [[Cell.absent, Cell.text "Ana"]] }
    "MATRICULA" (by decide)
  refine ⟨?_, h.1⟩
  rw [h.2.2 0 1 (by decide)]
  rfl

/-! ### C10: directory creation precedes and escapes the write wrapper -/

/-- C10: when directory creation fails, the write is never attempted and the
failure propagates unwrapped; only a failure of the Excel-writing step is
wrapped as the write error carrying the destination path. -/
theorem save_to_excel_error_spec (p e : String)
    (w : Except String Unit) :
    (save_to_excel (Except.error e) w p
        = ([FsAction.mkdirParents], Except.error (SaveError.mkdirFailure e))) ∧
    (w = Except.error e →
      save_to_excel (Except.ok ()) w p
        = ([FsAction.mkdirParents, FsAction.writeExcel],
            Except.error (SaveError.writeFailure p e))) ∧
    (w = Except.ok () →
      save_to_excel (Except.ok ()) w p
        = ([FsAction.mkdirParents, FsAction.writeExcel], Except.ok ())) := by
  refine ⟨rfl, ?_, ?_⟩ <;> rintro rfl <;> rfl

/-- C10 witness at concrete error strings and path. -/
theorem save_to_excel_error_spec_witness :
    save_to_excel (Except.error "disk full") (Except.error "bad sheet") "out.xlsx"
        = ([FsAction.mkdirParents], Except.error (SaveError.mkdirFailure "disk full")) ∧
    save_to_excel (Except.ok ()) (Except.error "bad sheet") "out.xlsx"
        = ([FsAction.mkdirParents, FsAction.writeExcel],
            Except.error (SaveError.writeFailure "out.xlsx" "bad sheet")) := by
  have h := save_to_excel_error_spec "out.xlsx" "bad sheet"
    (Except.error "bad sheet")
  have h0 := save_to_excel_error_spec "out.xlsx" "disk full"
    (Except.error "bad sheet")
  exact ⟨h0.1, h.2.1 rfl⟩

/-! ### Sorting lemmas for the summary builder -/

/-- Membership is preserved by sorted insertion. -/
theorem mem_insertSorted {α : Type _} (le : α → α → Bool) (a x : α)
    (l : List α) : x ∈ insertSorted le a l ↔ x = a ∨ x ∈ l := by
  induction l with
  | nil => simp [insertSorted]
  | cons b bs ih =>
    by_cases h : le a b <;> simp [insertSorted, h, ih] <;> tauto

/-- Sorted insertion permutes consing. -/
theorem insertSorted_perm {α : Type _} (le : α → α → Bool) (a : α)
    (l : List α) : List.Perm (insertSorted le a l) (a :: l) := by
  induction l with
  | nil => exact List.Perm.refl _
  | cons b bs ih =>
    by_cases h : le a b
    · simp only [insertSorted, if_pos h]
      exact List.Perm.refl _
    · simp only [insertSorted, if_neg h]
      exact List.Perm.trans (List.Perm.cons b ih) (List.Perm.swap a b bs)

/-- The insertion sort permutes its input. -/
theorem sortByLE_perm {α : Type _} (le : α → α → Bool) (l : List α) :
    List.Perm (sortByLE le l) l := by
  induction l with
  | nil => exact List.Perm.refl _
  | cons a as ih =>
    exact List.Perm.trans (insertSorted_perm le a (sortByLE le as))
      (List.Perm.cons a ih)

/-- Sorted insertion keeps a list pairwise-ordered, for a total transitive
comparison. -/
theorem pairwise_insertSorted {α : Type _} (le : α → α → Bool)
    (htot : ∀ a b, le a b = true ∨ le b a = true)
    (htrans : ∀ a b c, le a b = true → le b c = true → le a c = true)
    (a : α) (l : List α) (hl : l.Pairwise (fun x y => le x y = true)) :
    (insertSorted le a l).Pairwise (fun x y => le x y = true) := by
  induction l with
  | nil => simp [insertSorted]
  | cons b bs ih =>
    rw [List.pairwise_cons] at hl
    obtain ⟨hb, hbs⟩ := hl
    by_cases h : le a b
    · simp only [insertSorted, if_pos h]
      refine List.Pairwise.cons ?_ (List.Pairwise.cons hb hbs)
      intro y hy
      rcases List.mem_cons.mp hy with rfl | hy
      · exact h
      · exact htrans a b y h (hb y hy)
    · simp only [insertSorted, if_neg h]
      refine List.Pairwise.cons ?_ (ih hbs)
      intro y hy
      rcases (mem_insertSorted le a y bs).mp hy with heq | hy
      · rw [heq]
        rcases htot a b with h1 | h1
        · exact absurd h1 h
        · exact h1
      · exact hb y hy

/-- The insertion sort yields a pairwise-ordered list, for a total transitive
comparison. -/
theorem sortByLE_pairwise {α : Type _} (le : α → α → Bool)
    (htot : ∀ a b, le a b = true ∨ le b a = true)
    (htrans : ∀ a b c, le a b = true → le b c = true → le a c = true)
    (l : List α) :
    (sortByLE le l).Pairwise (fun x y => le x y = true) := by
  induction l with
  | nil => simp [sortByLE]
  | cons a as ih => exact pairwise_insertSorted le htot htrans a _ ih

/-- The ordering `build_summary` sorts by, as a proposition: lower precedence
number first, ties broken alphabetically. -/
def summaryPrecede (c d : String) : Prop :=
  categoryOrd c < categoryOrd d ∨ (categoryOrd c = categoryOrd d ∧ c ≤ d)

instance (c d : String) : Decidable (summaryPrecede c d) := by
  unfold summaryPrecede
  infer_instance

/-- The Boolean sort key agrees with `summaryPrecede`. -/
theorem summaryLE_eq_true_iff (a b : String × Nat) :
    summaryLE a b = true ↔ summaryPrecede a.1 b.1 := by
  unfold summaryLE summaryPrecede
  by_cases h1 : categoryOrd a.1 < categoryOrd b.1
  · simp [h1]
  · by_cases h2 : categoryOrd b.1 < categoryOrd a.1
    · simp [h1, h2]
      omega
    · have h3 : categoryOrd a.1 = categoryOrd b.1 := by omega
      simp [h1, h2, h3]

/-- The sort key is total. -/
theorem summaryLE_total (a b : String × Nat) :
    summaryLE a b = true ∨ summaryLE b a = true := by
  rw [summaryLE_eq_true_iff, summaryLE_eq_true_iff]
  unfold summaryPrecede
  rcases Nat.lt_trichotomy (categoryOrd a.1) (categoryOrd b.1) with h | h | h
  · exact Or.inl (Or.inl h)
  · rcases le_total a.1 b.1 with h' | h'
    · exact Or.inl (Or.inr ⟨h, h'⟩)
    · exact Or.inr (Or.inr ⟨h.symm, h'⟩)
  · exact Or.inr (Or.inl h)

/-- The sort key is transitive. -/
theorem summaryLE_trans (a b c : String × Nat)
    (h1 : summaryLE a b = true) (h2 : summaryLE b c = true) :
    summaryLE a c = true := by
  rw [summaryLE_eq_true_iff] at h1 h2 ⊢
  unfold summaryPrecede at h1 h2 ⊢
  rcases h1 with h1 | ⟨h1, h1'⟩ <;> rcases h2 with h2 | ⟨h2, h2'⟩
  · exact Or.inl (Nat.lt_trans h1 h2)
  · exact Or.inl (h2 ▸ h1)
  · exact Or.inl (h1 ▸ h2)
  · exact Or.inr ⟨h1.trans h2, le_trans h1' h2'⟩

/-! ### C3 and C4: the summary rows and counts -/

/-- The summary rows in closed form: the three indicator categories with
their multiplicities, in the fixed precedence order — `value_counts` on the
categorical indicator always emits all three categories, and the sort puts
`both` before `left_only` before `right_only`. -/
theorem build_summary_eq (tags : List String) :
    build_summary tags
      = [("both", tags.count "both"), ("left_only", tags.count "left_only"),
         ("right_only", tags.count "right_only")] := rfl

/-- C3 counterexample: in an all-matched join (every row tagged `both`) the
summary still carries a row for the absent tag `left_only` (with count 0),
so the summary does have rows for absent tags. -/
theorem build_summary_rows_counterexample :
    ("left_only", 0) ∈ build_summary ["both"] ∧ "left_only" ∉ ["both"] := by
  decide

/-- C3 (amended): the summary contains exactly one (tag, count) row per
category of the categorical `_merge` indicator — `both`, `left_only`,
`right_only` — including zero-count rows for categories absent from the
joined table, and the rows are ordered by the fixed precedence (`both`, then
`left_only`, then `right_only`; any tag outside the precedence table would
sort alphabetically after them). -/
theorem build_summary_rows_spec (tags : List String) :
    (∀ c : String, (∃ n, (c, n) ∈ build_summary tags) ↔ c ∈ indicatorCategories) ∧
    ((build_summary tags).map Prod.fst).Nodup ∧
    (build_summary tags).Pairwise (fun a b => summaryPrecede a.1 b.1) := by
  have heq := build_summary_eq tags
  refine ⟨?_, ?_, ?_⟩
  · intro c
    rw [heq]
    constructor
    · rintro ⟨n, hn⟩
      simp only [List.mem_cons, List.not_mem_nil, or_false, Prod.mk.injEq] at hn
      rcases hn with ⟨rfl, _⟩ | ⟨rfl, _⟩ | ⟨rfl, _⟩
      · decide
      · decide
      · decide
    · intro hc
      simp only [indicatorCategories, List.mem_cons, List.not_mem_nil,
        or_false] at hc
      rcases hc with rfl | rfl | rfl
      · exact ⟨tags.count "left_only", by simp⟩
      · exact ⟨tags.count "right_only", by simp⟩
      · exact ⟨tags.count "both", by simp⟩
  · rw [heq]
    simp only [List.map_cons, List.map_nil]
    decide
  · rw [heq]
    refine List.Pairwise.cons ?_ (List.Pairwise.cons ?_
      (List.Pairwise.cons ?_ List.Pairwise.nil))
    · intro y hy
      rcases List.mem_cons.mp hy with rfl | hy2
      · show summaryPrecede "both" "left_only"
        decide
      · rcases List.mem_cons.mp hy2 with rfl | hy3
        · show summaryPrecede "both" "right_only"
          decide
        · exact absurd hy3 (List.not_mem_nil y)
    · intro y hy
      rcases List.mem_cons.mp hy with rfl | hy2
      · show summaryPrecede "left_only" "right_only"
        decide
      · exact absurd hy2 (List.not_mem_nil y)
    · intro y hy
      exact absurd hy (List.not_mem_nil y)

/-- C3 witness: for an all-`both` tag column, the absent category
`left_only` still gets its (zero-count) summary row. -/
theorem build_summary_rows_spec_witness :
    (∃ n, ("left_only", n) ∈ build_summary ["both"]) ∧
    ("left_only", 0) ∈ build_summary ["both"] := by
  have h := build_summary_rows_spec ["both"]
  exact ⟨(h.1 "left_only").mpr (by decide), by decide⟩

/-- Tags drawn from the indicator categories have their three counts sum to
the column length. -/
theorem count_three_sum (tags : List String)
    (h : ∀ t ∈ tags, t ∈ indicatorCategories) :
    tags.count "both" + tags.count "left_only" + tags.count "right_only"
      = tags.length := by
  induction tags with
  | nil => rfl
  | cons t ts ih =>
    have ht := h t (List.mem_cons_self t ts)
    have ih2 := ih (fun x hx => h x (List.mem_cons_of_mem t hx))
    rw [List.count_cons, List.count_cons, List.count_cons, List.length_cons]
    simp only [indicatorCategories, List.mem_cons, List.not_mem_nil,
      or_false] at ht
    rcases ht with rfl | rfl | rfl <;> simp <;> omega

/-- C4: on a joined table (whose tags are the indicator categories), each
summary row's count is the number of joined rows carrying that tag, and the
counts sum to the number of joined rows. -/
theorem build_summary_counts_spec (tags : List String)
    (hcat : ∀ t ∈ tags, t ∈ indicatorCategories) :
    (∀ c n, (c, n) ∈ build_summary tags → n = tags.count c) ∧
    ((build_summary tags).map Prod.snd).sum = tags.length := by
  constructor
  · intro c n hmem
    rw [build_summary_eq] at hmem
    simp only [List.mem_cons, List.not_mem_nil, or_false,
      Prod.mk.injEq] at hmem
    rcases hmem with ⟨rfl, rfl⟩ | ⟨rfl, rfl⟩ | ⟨rfl, rfl⟩ <;> rfl
  · rw [build_summary_eq]
    simp only [List.map_cons, List.map_nil, List.sum_cons, List.sum_nil]
    have hs := count_three_sum tags hcat
    omega

/-- C4 witness: concrete counts at a three-tag column, including the
zero-count row of the absent category. -/
theorem build_summary_counts_spec_witness :
    (("both", 2) ∈ build_summary ["both", "right_only", "both"]) ∧
    (("left_only", 0) ∈ build_summary ["both", "right_only", "both"]) ∧
    ((build_summary ["both", "right_only", "both"]).map Prod.snd).sum = 3 := by
  have h := build_summary_counts_spec ["both", "right_only", "both"] (by decide)
  exact ⟨by decide, by decide, h.2⟩

/-! ### Shape lemmas for the outer join -/

/-- A present key column sits at an index inside the header. -/
theorem keyIdx_lt (t : Table) (key : String) (hk : key ∈ t.cols) :
    keyIdx t key < t.cols.length :=
  List.findIdx_lt_length_of_exists ⟨key, hk, by simp⟩

/-- The rows of the outer join, written without the intermediate names. -/
theorem merge_rows_eq (left right : Table) (key : String) :
    (pd_merge_outer left right key).rows
      = left.rows.flatMap (fun lr =>
          if (right.rows.filter (fun rr => rr.getD (keyIdx right key) Cell.absent
                = lr.getD (keyIdx left key) Cell.absent)).isEmpty then
            [lr ++ List.replicate (right.cols.length - 1) Cell.absent
                ++ [Cell.text "left_only"]]
          else
            (right.rows.filter (fun rr => rr.getD (keyIdx right key) Cell.absent
                = lr.getD (keyIdx left key) Cell.absent)).map
              (fun rr => lr ++ rr.eraseIdx (keyIdx right key) ++ [Cell.text "both"]))
        ++ (right.rows.filter
              (fun rr => ¬ rr.getD (keyIdx right key) Cell.absent ∈ keyVals left key)).map
            (fun rr =>
              (List.replicate left.cols.length Cell.absent).set (keyIdx left key)
                  (rr.getD (keyIdx right key) Cell.absent)
                ++ rr.eraseIdx (keyIdx right key) ++ [Cell.text "right_only"]) := rfl

/-- The columns of the outer join, written without the intermediate names. -/
theorem merge_cols_eq (left right : Table) (key : String) :
    (pd_merge_outer left right key).cols
      = (left.cols.map (fun c => if c ≠ key ∧ c ∈ right.cols then c ++ "_left" else c))
          ++ ((right.cols.eraseIdx (keyIdx right key)).map
                (fun c => if c ∈ left.cols then c ++ "_right" else c))
          ++ ["_merge"] := rfl

/-- Reading inside the left block of a joined row. -/
theorem rowKey_left_shape (lr rest : List Cell) (tag : Cell) (i : Nat)
    (h : i < lr.length) :
    (lr ++ rest ++ [tag]).getD i Cell.absent = lr.getD i Cell.absent := by
  rw [List.getD_append _ _ _ _ (by rw [List.length_append]; omega),
    List.getD_append _ _ _ _ h]

/-- Reading the planted key cell of a right-only joined row. -/
theorem rowKey_right_shape (k : Cell) (n i : Nat) (rest : List Cell) (tag : Cell)
    (h : i < n) :
    ((List.replicate n Cell.absent).set i k ++ rest ++ [tag]).getD i Cell.absent
      = k := by
  have hlen1 : i < ((List.replicate n Cell.absent).set i k).length := by
    rw [List.length_set, List.length_replicate]; omega
  have hlen2 : i < ((List.replicate n Cell.absent).set i k ++ rest).length := by
    rw [List.length_append]; omega
  have hlen3 : i < (List.replicate n Cell.absent).length := by
    rw [List.length_replicate]; omega
  rw [List.getD_append _ _ _ _ hlen2, List.getD_append _ _ _ _ hlen1,
    List.getD_eq_getElem?_getD, List.getElem?_set_self hlen3]
  rfl

/-! ### C1: provenance tags match key membership -/

/-- C1: every joined row's provenance tag (the last cell, the `_merge`
indicator) is `left_only` exactly when its key value occurs among the left
key values but not the right ones, `right_only` exactly when it occurs only
in the right ones, and `both` exactly when it occurs in both. -/
theorem merge_provenance (left right : Table) (key : String)
    (hL : left.WF) (hkL : key ∈ left.cols) :
    ∀ r ∈ (pd_merge_outer left right key).rows,
      ((r.getLast? = some (Cell.text "left_only")) ↔
        (r.getD (keyIdx left key) Cell.absent ∈ keyVals left key ∧
         r.getD (keyIdx left key) Cell.absent ∉ keyVals right key)) ∧
      ((r.getLast? = some (Cell.text "right_only")) ↔
        (r.getD (keyIdx left key) Cell.absent ∉ keyVals left key ∧
         r.getD (keyIdx left key) Cell.absent ∈ keyVals right key)) ∧
      ((r.getLast? = some (Cell.text "both")) ↔
        (r.getD (keyIdx left key) Cell.absent ∈ keyVals left key ∧
         r.getD (keyIdx left key) Cell.absent ∈ keyVals right key)) := by
  intro r hr
  rw [merge_rows_eq] at hr
  rcases List.mem_append.mp hr with hm | hm
  · rw [List.mem_flatMap] at hm
    obtain ⟨lr, hlr, hmem⟩ := hm
    have hiL : keyIdx left key < lr.length := by
      rw [hL lr hlr]; exact keyIdx_lt left key hkL
    by_cases hms : (right.rows.filter (fun rr => rr.getD (keyIdx right key) Cell.absent
        = lr.getD (keyIdx left key) Cell.absent)).isEmpty
    · rw [if_pos hms, List.mem_singleton] at hmem
      subst hmem
      have htag := List.getLast?_concat
        (lr ++ List.replicate (right.cols.length - 1) Cell.absent)
        (a := Cell.text "left_only")
      have hkey := rowKey_left_shape lr
        (List.replicate (right.cols.length - 1) Cell.absent)
        (Cell.text "left_only") (keyIdx left key) hiL
      have h1 : lr.getD (keyIdx left key) Cell.absent ∈ keyVals left key := by
        unfold keyVals
        exact List.mem_map.mpr ⟨lr, hlr, rfl⟩
      have h2 : lr.getD (keyIdx left key) Cell.absent ∉ keyVals right key := by
        unfold keyVals
        rw [List.mem_map]
        rintro ⟨rr, hrr, heq⟩
        rw [List.isEmpty_iff, List.filter_eq_nil_iff] at hms
        exact hms rr hrr (by rw [decide_eq_true_eq]; exact heq)
      rw [List.getD_eq_getElem?_getD] at h1 h2
      rw [htag, hkey]
      simp [h1, h2]
    · rw [if_neg hms, List.mem_map] at hmem
      obtain ⟨rr, hrrf, hreq⟩ := hmem
      rw [List.mem_filter, decide_eq_true_eq] at hrrf
      obtain ⟨hrr, hkrr⟩ := hrrf
      subst hreq
      have htag := List.getLast?_concat (lr ++ rr.eraseIdx (keyIdx right key))
        (a := Cell.text "both")
      have hkey := rowKey_left_shape lr (rr.eraseIdx (keyIdx right key))
        (Cell.text "both") (keyIdx left key) hiL
      have h1 : lr.getD (keyIdx left key) Cell.absent ∈ keyVals left key := by
        unfold keyVals
        exact List.mem_map.mpr ⟨lr, hlr, rfl⟩
      have h2 : lr.getD (keyIdx left key) Cell.absent ∈ keyVals right key := by
        unfold keyVals
        exact List.mem_map.mpr ⟨rr, hrr, hkrr⟩
      rw [List.getD_eq_getElem?_getD] at h1 h2
      rw [htag, hkey]
      simp [h1, h2]
  · rw [List.mem_map] at hm
    obtain ⟨rr, hrrf, hreq⟩ := hm
    rw [List.mem_filter, decide_eq_true_eq] at hrrf
    obtain ⟨hrr, hnk⟩ := hrrf
    subst hreq
    have htag := List.getLast?_concat
      ((List.replicate left.cols.length Cell.absent).set (keyIdx left key)
          (rr.getD (keyIdx right key) Cell.absent)
        ++ rr.eraseIdx (keyIdx right key))
      (a := Cell.text "right_only")
    have hkey := rowKey_right_shape (rr.getD (keyIdx right key) Cell.absent)
      left.cols.length (keyIdx left key) (rr.eraseIdx (keyIdx right key))
      (Cell.text "right_only") (keyIdx_lt left key hkL)
    have h2 : rr.getD (keyIdx right key) Cell.absent ∈ keyVals right key := by
      unfold keyVals
      exact List.mem_map.mpr ⟨rr, hrr, rfl⟩
    rw [List.getD_eq_getElem?_getD] at h2 hnk
    rw [htag, hkey]
    simp [h2, hnk]

/-- The spec's end-to-end example, left table. -/
def exLeft : Table :=
  { cols := ["MATRICULA", "NOME"],
    rows := [[Cell.text "1", Cell.text "Ana"], [Cell.text "2", Cell.text "Bia"]] }

/-- The spec's end-to-end example, right table. -/
def exRight : Table :=
  { cols := ["MATRICULA", "SETOR"],
    rows := [[Cell.text "2", Cell.text "TI"], [Cell.text "3", Cell.text "RH"]] }

/-- C1 witness: on the spec's end-to-end example, the row with key "1"
satisfies the provenance characterization. -/
theorem merge_provenance_witness :
    ([Cell.text "1", Cell.text "Ana", Cell.absent, Cell.text "left_only"].getLast?
        = some (Cell.text "left_only")) ↔
      (([Cell.text "1", Cell.text "Ana", Cell.absent,
          Cell.text "left_only"].getD (keyIdx exLeft "MATRICULA") Cell.absent
            ∈ keyVals exLeft "MATRICULA") ∧
       ([Cell.text "1", Cell.text "Ana", Cell.absent,
          Cell.text "left_only"].getD (keyIdx exLeft "MATRICULA") Cell.absent
            ∉ keyVals exRight "MATRICULA")) :=
  (merge_provenance exLeft exRight "MATRICULA" (by decide) (by decide)
    [Cell.text "1", Cell.text "Ana", Cell.absent, Cell.text "left_only"]
    (by decide)).1

/-! ### Counting lemmas for the outer join -/

/-- With pairwise-distinct right key values, at most one right row matches a
given key. -/
theorem length_filter_key_le_one (rows : List (List Cell)) (i : Nat)
    (hnd : (rows.map (fun r => r.getD i Cell.absent)).Nodup) (k : Cell) :
    (rows.filter (fun rr => rr.getD i Cell.absent = k)).length ≤ 1 := by
  induction rows with
  | nil => simp
  | cons r rs ih =>
    rw [List.map_cons, List.nodup_cons] at hnd
    obtain ⟨hnm, hnd'⟩ := hnd
    by_cases h : r.getD i Cell.absent = k
    · rw [List.filter_cons_of_pos (by rw [decide_eq_true_eq]; exact h)]
      have hnil : rs.filter (fun rr => rr.getD i Cell.absent = k) = [] := by
        rw [List.filter_eq_nil_iff]
        intro x hx hxk
        rw [decide_eq_true_eq] at hxk
        exact hnm (List.mem_map.mpr ⟨x, hx, hxk.trans h.symm⟩)
      rw [hnil]
      exact le_refl 1
    · rw [List.filter_cons_of_neg (by rw [decide_eq_true_eq]; exact h)]
      exact ih hnd'

/-- A flat map whose pieces are all singletons is a map. -/
theorem flatMap_eq_map_of_forall_singleton {α β : Type _} (l : List α)
    (f : α → List β) (g : α → β) (h : ∀ a ∈ l, f a = [g a]) :
    l.flatMap f = l.map g := by
  induction l with
  | nil => rfl
  | cons a as ih =>
    rw [List.flatMap_cons, h a (List.mem_cons_self a as),
      ih (fun b hb => h b (List.mem_cons_of_mem a hb)), List.map_cons]
    rfl

/-- Mapping commutes with filtering through the mapped function. -/
theorem map_filter_comm {α β : Type _} (l : List α) (f : α → β) (p : β → Bool) :
    (l.filter (fun x => p (f x))).map f = (l.map f).filter p := by
  induction l with
  | nil => rfl
  | cons a as ih =>
    by_cases h : p (f a)
    · rw [List.filter_cons_of_pos (p := fun x => p (f x)) h, List.map_cons,
        List.map_cons, List.filter_cons_of_pos h, ih]
    · rw [List.filter_cons_of_neg (p := fun x => p (f x)) h, List.map_cons,
        List.filter_cons_of_neg h, ih]

/-- Cardinality of the union of two duplicate-free value lists. -/
theorem card_union_eq {α : Type _} [DecidableEq α] (L R : List α)
    (hL : L.Nodup) (hR : R.Nodup) :
    (L.toFinset ∪ R.toFinset).card
      = L.length + (R.filter (fun k => ¬ k ∈ L)).length := by
  have hnd : (L ++ R.filter (fun k => ¬ k ∈ L)).Nodup := by
    refine List.Nodup.append hL (hR.filter _) ?_
    intro x hxL hxR
    rw [List.mem_filter, decide_eq_true_eq] at hxR
    exact hxR.2 hxL
  have hfin : (L ++ R.filter (fun k => ¬ k ∈ L)).toFinset
      = L.toFinset ∪ R.toFinset := by
    ext x
    simp only [List.mem_toFinset, Finset.mem_union, List.mem_append,
      List.mem_filter, decide_eq_true_eq]
    constructor
    · rintro (h | ⟨h, _⟩)
      · exact Or.inl h
      · exact Or.inr h
    · rintro (h | h)
      · exact Or.inl h
      · by_cases hxL : x ∈ L
        · exact Or.inl hxL
        · exact Or.inr ⟨h, hxL⟩
  rw [← hfin, List.toFinset_card_of_nodup hnd, List.length_append]

/-- The key column of the joined table: all left keys in order, then the
right keys that match no left key. -/
theorem merge_keys_eq (left right : Table) (key : String)
    (hL : left.WF) (hkL : key ∈ left.cols)
    (hndR : (keyVals right key).Nodup) :
    (pd_merge_outer left right key).rows.map
        (fun r => r.getD (keyIdx left key) Cell.absent)
      = keyVals left key
        ++ (keyVals right key).filter (fun k => ¬ k ∈ keyVals left key) := by
  rw [merge_rows_eq, List.map_append]
  congr 1
  · rw [List.map_flatMap]
    rw [flatMap_eq_map_of_forall_singleton _ _
      (fun lr => lr.getD (keyIdx left key) Cell.absent) ?_]
    · rfl
    · intro lr hlr
      have hiL : keyIdx left key < lr.length := by
        rw [hL lr hlr]; exact keyIdx_lt left key hkL
      by_cases hms : (right.rows.filter
          (fun rr => rr.getD (keyIdx right key) Cell.absent
            = lr.getD (keyIdx left key) Cell.absent)).isEmpty
      · rw [if_pos hms, List.map_singleton,
          rowKey_left_shape _ _ _ _ hiL]
      · rw [if_neg hms]
        have hle := length_filter_key_le_one right.rows (keyIdx right key)
          hndR (lr.getD (keyIdx left key) Cell.absent)
        have hpos : 0 < (right.rows.filter
            (fun rr => rr.getD (keyIdx right key) Cell.absent
              = lr.getD (keyIdx left key) Cell.absent)).length := by
          rcases Nat.eq_zero_or_pos ((right.rows.filter
            (fun rr => rr.getD (keyIdx right key) Cell.absent
              = lr.getD (keyIdx left key) Cell.absent)).length) with h0 | h0
          · refine absurd ?_ hms
            rw [List.isEmpty_iff]
            exact List.length_eq_zero.mp h0
          · exact h0
        obtain ⟨rr0, hrr0⟩ := List.length_eq_one.mp (Nat.le_antisymm hle hpos)
        rw [hrr0, List.map_map, List.map_singleton]
        simp only [Function.comp_apply]
        rw [rowKey_left_shape lr (rr0.eraseIdx (keyIdx right key))
          (Cell.text "both") (keyIdx left key) hiL]
  · rw [List.map_map]
    rw [List.map_congr_left (g := fun rr =>
        rr.getD (keyIdx right key) Cell.absent) ?_]
    · exact map_filter_comm right.rows
        (fun rr => rr.getD (keyIdx right key) Cell.absent)
        (fun k => decide (¬ k ∈ keyVals left key))
    · intro rr _
      exact rowKey_right_shape _ _ _ _ _ (keyIdx_lt left key hkL)

/-! ### C2: one output row per distinct key, row-count conservation -/

/-- C2: when each key value occurs at most once per input table, the joined
key column lists every left key once followed by every right-only key once,
so the joined row count is the cardinality of the union of the two key
sets. -/
theorem merge_row_count (left right : Table) (key : String)
    (hL : left.WF) (hkL : key ∈ left.cols)
    (hndL : (keyVals left key).Nodup) (hndR : (keyVals right key).Nodup) :
    (pd_merge_outer left right key).rows.map
        (fun r => r.getD (keyIdx left key) Cell.absent)
      = keyVals left key
        ++ (keyVals right key).filter (fun k => ¬ k ∈ keyVals left key) ∧
    (pd_merge_outer left right key).rows.length
      = ((keyVals left key).toFinset ∪ (keyVals right key).toFinset).card := by
  have hkeys := merge_keys_eq left right key hL hkL hndR
  refine ⟨hkeys, ?_⟩
  have hlen := congrArg List.length hkeys
  rw [List.length_map] at hlen
  rw [hlen, List.length_append]
  exact (card_union_eq (keyVals left key) (keyVals right key) hndL hndR).symm

/-- C2 witness: on the spec's end-to-end example the join has three rows,
one per key in the union of the two key sets. -/
theorem merge_row_count_witness :
    (pd_merge_outer exLeft exRight "MATRICULA").rows.length
      = ((keyVals exLeft "MATRICULA").toFinset
          ∪ (keyVals exRight "MATRICULA").toFinset).card ∧
    (pd_merge_outer exLeft exRight "MATRICULA").rows.length = 3 := by
  have h := merge_row_count exLeft exRight "MATRICULA"
    (by decide) (by decide) (by decide) (by decide)
  exact ⟨h.2, by decide⟩

/-! ### String and counting lemmas for column disambiguation -/

/-- Appending the same suffix is injective. -/
theorem string_append_right_cancel (a b s : String) (h : a ++ s = b ++ s) :
    a = b := by
  apply String.ext
  have hd : a.data ++ s.data = b.data ++ s.data := by
    rw [← String.data_append, ← String.data_append, h]
  exact List.append_cancel_right hd

/-- A `_left`-suffixed name never equals a `_right`-suffixed name. -/
theorem append_left_ne_append_right (c d : String) :
    c ++ "_left" ≠ d ++ "_right" := by
  intro h
  have hd : c.data ++ "_left".data = d.data ++ "_right".data := by
    rw [← String.data_append, ← String.data_append, h]
  have h1 := congrArg List.reverse hd
  rw [List.reverse_append, List.reverse_append] at h1
  have e1 : ("_left".data).reverse = ['t', 'f', 'e', 'l', '_'] := by decide
  have e2 : ("_right".data).reverse = ['t', 'h', 'g', 'i', 'r', '_'] := by decide
  rw [e1, e2] at h1
  simp only [List.cons_append] at h1
  injection h1 with _ h2
  injection h2 with h3 _
  exact absurd h3 (by decide)

/-- Occurrences of a name among mapped names, counted via the preimages. -/
theorem count_map_eq_length_filter {α : Type _} (l : List α)
    (f : α → String) (t : String) :
    (l.map f).count t = (l.filter (fun x => f x = t)).length := by
  induction l with
  | nil => rfl
  | cons a as ih =>
    rw [List.map_cons, List.count_cons, ih]
    by_cases h : f a = t
    · rw [List.filter_cons_of_pos (by rw [decide_eq_true_eq]; exact h)]
      simp [h]
    · rw [List.filter_cons_of_neg (by rw [decide_eq_true_eq]; exact h)]
      simp [h]

/-- In a duplicate-free list, a member matches the equality filter once. -/
theorem length_filter_eq_of_nodup {α : Type _} [DecidableEq α] (l : List α)
    (hnd : l.Nodup) (c : α) (hc : c ∈ l) :
    (l.filter (fun d => d = c)).length = 1 := by
  induction l with
  | nil => cases hc
  | cons a as ih =>
    rw [List.nodup_cons] at hnd
    obtain ⟨hna, hnd'⟩ := hnd
    by_cases h : a = c
    · rw [List.filter_cons_of_pos (by rw [decide_eq_true_eq]; exact h)]
      have hnil : as.filter (fun d => d = c) = [] := by
        rw [List.filter_eq_nil_iff]
        intro x hx hxc
        rw [decide_eq_true_eq] at hxc
        exact hna (by rw [h]; exact hxc ▸ hx)
      rw [hnil]
      rfl
    · rcases List.mem_cons.mp hc with hce | hcm
      · exact absurd hce.symm h
      · rw [List.filter_cons_of_neg (by rw [decide_eq_true_eq]; exact h)]
        exact ih hnd' hcm

/-- A mapped count is one when exactly one source column maps to the
target. -/
theorem count_map_of_unique (l : List String) (f : String → String)
    (t c : String) (hnd : l.Nodup) (hc : c ∈ l)
    (hiff : ∀ d ∈ l, f d = t ↔ d = c) :
    (l.map f).count t = 1 := by
  rw [count_map_eq_length_filter]
  have hcongr : List.filter (fun x => f x = t) l
      = List.filter (fun d => d = c) l := by
    apply List.filter_congr
    intro x hx
    rw [decide_eq_decide]
    exact hiff x hx
  rw [hcongr]
  exact length_filter_eq_of_nodup l hnd c hc

/-- A mapped count is zero when no source column maps to the target. -/
theorem count_map_of_none (l : List String) (f : String → String)
    (t : String) (h : ∀ d ∈ l, f d ≠ t) :
    (l.map f).count t = 0 := by
  have hnil : l.filter (fun x => f x = t) = [] := by
    rw [List.filter_eq_nil_iff]
    intro x hx hxc
    rw [decide_eq_true_eq] at hxc
    exact h x hx hxc
  rw [count_map_eq_length_filter, hnil]
  rfl

/-- Counting in a singleton of a different name gives zero. -/
theorem count_singleton_ne (a t : String) (h : a ≠ t) :
    List.count t [a] = 0 := by
  rw [List.count_singleton]
  simp [h]

/-- A column other than the key survives erasing the key position. -/
theorem mem_eraseIdx_findIdx_of_ne {l : List String} {key c : String}
    (hc : c ∈ l) (hne : c ≠ key) :
    c ∈ l.eraseIdx (l.findIdx (fun x => x = key)) := by
  induction l with
  | nil => cases hc
  | cons a as ih =>
    rw [List.findIdx_cons]
    by_cases h : a = key
    · have hcond : (bif decide (a = key) then 0
          else List.findIdx (fun x => decide (x = key)) as + 1) = 0 := by simp [h]
      rw [hcond, List.eraseIdx_cons_zero]
      rcases List.mem_cons.mp hc with hca | hcm
      · exact absurd (hca.trans h) hne
      · exact hcm
    · have hcond : (bif decide (a = key) then 0
          else List.findIdx (fun x => decide (x = key)) as + 1)
          = List.findIdx (fun x => decide (x = key)) as + 1 := by simp [h]
      rw [hcond, List.eraseIdx_cons_succ]
      rcases List.mem_cons.mp hc with hca | hcm
      · rw [hca]; exact List.mem_cons_self a _
      · exact List.mem_cons_of_mem a (ih hcm)

/-- In a duplicate-free header, the key is gone after erasing its
position. -/
theorem key_not_mem_eraseIdx {l : List String} {key : String}
    (hnd : l.Nodup) :
    key ∉ l.eraseIdx (l.findIdx (fun x => x = key)) := by
  induction l with
  | nil => simp
  | cons a as ih =>
    rw [List.nodup_cons] at hnd
    obtain ⟨hna, hnd'⟩ := hnd
    rw [List.findIdx_cons]
    by_cases h : a = key
    · have hcond : (bif decide (a = key) then 0
          else List.findIdx (fun x => decide (x = key)) as + 1) = 0 := by simp [h]
      rw [hcond, List.eraseIdx_cons_zero, ← h]
      exact hna
    · have hcond : (bif decide (a = key) then 0
          else List.findIdx (fun x => decide (x = key)) as + 1)
          = List.findIdx (fun x => decide (x = key)) as + 1 := by simp [h]
      rw [hcond, List.eraseIdx_cons_succ, List.mem_cons]
      rintro (hk | hk)
      · exact h hk.symm
      · exact ih hnd' hk

/-- No column name of either table, and not the indicator name `_merge`, is
itself a `_left`- or `_right`-suffixed version of a column name: the sane
precondition under which pandas suffixing produces no duplicate labels. -/
def FreshSuffixes (left right : Table) : Prop :=
  (∀ d ∈ left.cols ++ right.cols ++ ["_merge"],
    ∀ e ∈ left.cols ++ right.cols, d ≠ e ++ "_left" ∧ d ≠ e ++ "_right") ∧
  "_merge" ∉ left.cols ∧ "_merge" ∉ right.cols

instance (left right : Table) : Decidable (FreshSuffixes left right) := by
  unfold FreshSuffixes
  infer_instance

/-- Convenient access to the freshness condition. -/
theorem fresh_spec {left right : Table} (hf : FreshSuffixes left right)
    {d e : String} (hd : d ∈ left.cols ∨ d ∈ right.cols ∨ d = "_merge")
    (he : e ∈ left.cols ∨ e ∈ right.cols) :
    d ≠ e ++ "_left" ∧ d ≠ e ++ "_right" := by
  refine hf.1 d ?_ e ?_
  · rcases hd with h | h | h
    · exact List.mem_append_left _ (List.mem_append_left _ h)
    · exact List.mem_append_left _ (List.mem_append_right _ h)
    · exact List.mem_append_right _ (by rw [h]; exact List.mem_singleton.mpr rfl)
  · rcases he with h | h
    · exact List.mem_append_left _ h
    · exact List.mem_append_right _ h

/-! ### C5: colliding non-key columns are suffixed, key stays unsuffixed -/

/-- C5: when both tables share a non-key column name, the joined header holds
exactly one `_left`- and one `_right`-suffixed copy of it and drops the bare
name; non-colliding non-key names appear exactly once unchanged; and the key
appears exactly once and never suffixed. -/
theorem merge_columns_spec (left right : Table) (key : String)
    (hndL : left.cols.Nodup) (hndR : right.cols.Nodup)
    (hkL : key ∈ left.cols) (hfresh : FreshSuffixes left right) :
    (∀ c, c ≠ key → c ∈ left.cols → c ∈ right.cols →
      (pd_merge_outer left right key).cols.count (c ++ "_left") = 1 ∧
      (pd_merge_outer left right key).cols.count (c ++ "_right") = 1 ∧
      (pd_merge_outer left right key).cols.count c = 0) ∧
    (∀ c, c ≠ key → c ∈ left.cols → c ∉ right.cols →
      (pd_merge_outer left right key).cols.count c = 1) ∧
    (∀ c, c ≠ key → c ∈ right.cols → c ∉ left.cols →
      (pd_merge_outer left right key).cols.count c = 1) ∧
    (pd_merge_outer left right key).cols.count key = 1 ∧
    (pd_merge_outer left right key).cols.count (key ++ "_left") = 0 ∧
    (pd_merge_outer left right key).cols.count (key ++ "_right") = 0 := by
  have hndE : (right.cols.eraseIdx (keyIdx right key)).Nodup :=
    (List.eraseIdx_sublist right.cols (keyIdx right key)).nodup hndR
  rw [merge_cols_eq]
  refine ⟨?_, ?_, ?_, ?_, ?_, ?_⟩
  · intro c hck hcl hcr
    refine ⟨?_, ?_, ?_⟩
    · have h1 : (left.cols.map
          (fun d => if d ≠ key ∧ d ∈ right.cols then d ++ "_left" else d)).count
            (c ++ "_left") = 1 := by
        apply count_map_of_unique left.cols _ _ c hndL hcl
        intro d hd
        constructor
        · intro hfd
          by_cases hcol : d ≠ key ∧ d ∈ right.cols
          · rw [if_pos hcol] at hfd
            exact string_append_right_cancel d c "_left" hfd
          · rw [if_neg hcol] at hfd
            exact absurd hfd (fresh_spec hfresh (Or.inl hd) (Or.inl hcl)).1
        · intro hdc
          rw [hdc, if_pos ⟨hck, hcr⟩]
      have h2 : ((right.cols.eraseIdx (keyIdx right key)).map
          (fun d => if d ∈ left.cols then d ++ "_right" else d)).count
            (c ++ "_left") = 0 := by
        apply count_map_of_none
        intro d hd hfd
        have hdR := List.mem_of_mem_eraseIdx hd
        by_cases hcol : d ∈ left.cols
        · rw [if_pos hcol] at hfd
          exact append_left_ne_append_right c d hfd.symm
        · rw [if_neg hcol] at hfd
          exact (fresh_spec hfresh (Or.inr (Or.inl hdR)) (Or.inl hcl)).1 hfd
      have h3 : List.count (c ++ "_left") ["_merge"] = 0 :=
        count_singleton_ne _ _
          (fresh_spec hfresh (Or.inr (Or.inr rfl)) (Or.inl hcl)).1
      rw [List.count_append, List.count_append, h1, h2, h3]
    · have h1 : (left.cols.map
          (fun d => if d ≠ key ∧ d ∈ right.cols then d ++ "_left" else d)).count
            (c ++ "_right") = 0 := by
        apply count_map_of_none
        intro d hd hfd
        by_cases hcol : d ≠ key ∧ d ∈ right.cols
        · rw [if_pos hcol] at hfd
          exact append_left_ne_append_right d c hfd
        · rw [if_neg hcol] at hfd
          exact (fresh_spec hfresh (Or.inl hd) (Or.inl hcl)).2 hfd
      have h2 : ((right.cols.eraseIdx (keyIdx right key)).map
          (fun d => if d ∈ left.cols then d ++ "_right" else d)).count
            (c ++ "_right") = 1 := by
        apply count_map_of_unique _ _ _ c hndE
          (mem_eraseIdx_findIdx_of_ne hcr hck)
        intro d hd
        constructor
        · intro hfd
          by_cases hcol : d ∈ left.cols
          · rw [if_pos hcol] at hfd
            exact string_append_right_cancel d c "_right" hfd
          · rw [if_neg hcol] at hfd
            exact absurd hfd (fresh_spec hfresh
              (Or.inr (Or.inl (List.mem_of_mem_eraseIdx hd))) (Or.inl hcl)).2
        · intro hdc
          rw [hdc, if_pos hcl]
      have h3 : List.count (c ++ "_right") ["_merge"] = 0 :=
        count_singleton_ne _ _
          (fresh_spec hfresh (Or.inr (Or.inr rfl)) (Or.inl hcl)).2
      rw [List.count_append, List.count_append, h1, h2, h3]
    · have h1 : (left.cols.map
          (fun d => if d ≠ key ∧ d ∈ right.cols then d ++ "_left" else d)).count
            c = 0 := by
        apply count_map_of_none
        intro d hd hfd
        by_cases hcol : d ≠ key ∧ d ∈ right.cols
        · rw [if_pos hcol] at hfd
          exact (fresh_spec hfresh (Or.inl hcl) (Or.inl hd)).1 hfd.symm
        · rw [if_neg hcol] at hfd
          exact hcol ⟨by rw [hfd]; exact hck, by rw [hfd]; exact hcr⟩
      have h2 : ((right.cols.eraseIdx (keyIdx right key)).map
          (fun d => if d ∈ left.cols then d ++ "_right" else d)).count
            c = 0 := by
        apply count_map_of_none
        intro d hd hfd
        by_cases hcol : d ∈ left.cols
        · rw [if_pos hcol] at hfd
          exact (fresh_spec hfresh (Or.inl hcl) (Or.inl hcol)).2 hfd.symm
        · rw [if_neg hcol] at hfd
          exact hcol (by rw [hfd]; exact hcl)
      have h3 : List.count c ["_merge"] = 0 := by
        apply count_singleton_ne
        intro he
        exact hfresh.2.1 (he ▸ hcl)
      rw [List.count_append, List.count_append, h1, h2, h3]
  · intro c hck hcl hcr
    have h1 : (left.cols.map
        (fun d => if d ≠ key ∧ d ∈ right.cols then d ++ "_left" else d)).count
          c = 1 := by
      apply count_map_of_unique left.cols _ _ c hndL hcl
      intro d hd
      constructor
      · intro hfd
        by_cases hcol : d ≠ key ∧ d ∈ right.cols
        · rw [if_pos hcol] at hfd
          exact absurd hfd.symm (fresh_spec hfresh (Or.inl hcl) (Or.inl hd)).1
        · rwa [if_neg hcol] at hfd
      · intro hdc
        rw [hdc, if_neg (fun hcol => hcr hcol.2)]
    have h2 : ((right.cols.eraseIdx (keyIdx right key)).map
        (fun d => if d ∈ left.cols then d ++ "_right" else d)).count
          c = 0 := by
      apply count_map_of_none
      intro d hd hfd
      by_cases hcol : d ∈ left.cols
      · rw [if_pos hcol] at hfd
        exact (fresh_spec hfresh (Or.inl hcl) (Or.inl hcol)).2 hfd.symm
      · rw [if_neg hcol] at hfd
        exact hcol (by rw [hfd]; exact hcl)
    have h3 : List.count c ["_merge"] = 0 := by
      apply count_singleton_ne
      intro he
      exact hfresh.2.1 (he ▸ hcl)
    rw [List.count_append, List.count_append, h1, h2, h3]
  · intro c hck hcr hcl
    have h1 : (left.cols.map
        (fun d => if d ≠ key ∧ d ∈ right.cols then d ++ "_left" else d)).count
          c = 0 := by
      apply count_map_of_none
      intro d hd hfd
      by_cases hcol : d ≠ key ∧ d ∈ right.cols
      · rw [if_pos hcol] at hfd
        exact (fresh_spec hfresh (Or.inr (Or.inl hcr)) (Or.inl hd)).1 hfd.symm
      · rw [if_neg hcol] at hfd
        exact hcl (by rw [← hfd]; exact hd)
    have h2 : ((right.cols.eraseIdx (keyIdx right key)).map
        (fun d => if d ∈ left.cols then d ++ "_right" else d)).count
          c = 1 := by
      apply count_map_of_unique _ _ _ c hndE
        (mem_eraseIdx_findIdx_of_ne hcr hck)
      intro d hd
      constructor
      · intro hfd
        by_cases hcol : d ∈ left.cols
        · rw [if_pos hcol] at hfd
          exact absurd hfd.symm
            (fresh_spec hfresh (Or.inr (Or.inl hcr)) (Or.inl hcol)).2
        · rwa [if_neg hcol] at hfd
      · intro hdc
        rw [hdc, if_neg hcl]
    have h3 : List.count c ["_merge"] = 0 := by
      apply count_singleton_ne
      intro he
      exact hfresh.2.2 (he ▸ hcr)
    rw [List.count_append, List.count_append, h1, h2, h3]
  · have h1 : (left.cols.map
        (fun d => if d ≠ key ∧ d ∈ right.cols then d ++ "_left" else d)).count
          key = 1 := by
      apply count_map_of_unique left.cols _ _ key hndL hkL
      intro d hd
      constructor
      · intro hfd
        by_cases hcol : d ≠ key ∧ d ∈ right.cols
        · rw [if_pos hcol] at hfd
          exact absurd hfd.symm (fresh_spec hfresh (Or.inl hkL) (Or.inl hd)).1
        · rwa [if_neg hcol] at hfd
      · intro hdc
        rw [hdc, if_neg (fun hcol => hcol.1 rfl)]
    have h2 : ((right.cols.eraseIdx (keyIdx right key)).map
        (fun d => if d ∈ left.cols then d ++ "_right" else d)).count
          key = 0 := by
      apply count_map_of_none
      intro d hd hfd
      by_cases hcol : d ∈ left.cols
      · rw [if_pos hcol] at hfd
        exact (fresh_spec hfresh (Or.inl hkL) (Or.inl hcol)).2 hfd.symm
      · rw [if_neg hcol] at hfd
        exact key_not_mem_eraseIdx hndR (hfd ▸ hd)
    have h3 : List.count key ["_merge"] = 0 := by
      apply count_singleton_ne
      intro he
      exact hfresh.2.1 (he ▸ hkL)
    rw [List.count_append, List.count_append, h1, h2, h3]
  · have h1 : (left.cols.map
        (fun d => if d ≠ key ∧ d ∈ right.cols then d ++ "_left" else d)).count
          (key ++ "_left") = 0 := by
      apply count_map_of_none
      intro d hd hfd
      by_cases hcol : d ≠ key ∧ d ∈ right.cols
      · rw [if_pos hcol] at hfd
        exact hcol.1 (string_append_right_cancel d key "_left" hfd)
      · rw [if_neg hcol] at hfd
        exact (fresh_spec hfresh (Or.inl hd) (Or.inl hkL)).1 hfd
    have h2 : ((right.cols.eraseIdx (keyIdx right key)).map
        (fun d => if d ∈ left.cols then d ++ "_right" else d)).count
          (key ++ "_left") = 0 := by
      apply count_map_of_none
      intro d hd hfd
      have hdR := List.mem_of_mem_eraseIdx hd
      by_cases hcol : d ∈ left.cols
      · rw [if_pos hcol] at hfd
        exact append_left_ne_append_right key d hfd.symm
      · rw [if_neg hcol] at hfd
        exact (fresh_spec hfresh (Or.inr (Or.inl hdR)) (Or.inl hkL)).1 hfd
    have h3 : List.count (key ++ "_left") ["_merge"] = 0 :=
      count_singleton_ne _ _
        (fresh_spec hfresh (Or.inr (Or.inr rfl)) (Or.inl hkL)).1
    rw [List.count_append, List.count_append, h1, h2, h3]
  · have h1 : (left.cols.map
        (fun d => if d ≠ key ∧ d ∈ right.cols then d ++ "_left" else d)).count
          (key ++ "_right") = 0 := by
      apply count_map_of_none
      intro d hd hfd
      by_cases hcol : d ≠ key ∧ d ∈ right.cols
      · rw [if_pos hcol] at hfd
        exact append_left_ne_append_right d key hfd
      · rw [if_neg hcol] at hfd
        exact (fresh_spec hfresh (Or.inl hd) (Or.inl hkL)).2 hfd
    have h2 : ((right.cols.eraseIdx (keyIdx right key)).map
        (fun d => if d ∈ left.cols then d ++ "_right" else d)).count
          (key ++ "_right") = 0 := by
      apply count_map_of_none
      intro d hd hfd
      by_cases hcol : d ∈ left.cols
      · rw [if_pos hcol] at hfd
        have hdk := string_append_right_cancel d key "_right" hfd
        exact key_not_mem_eraseIdx hndR (hdk ▸ hd)
      · rw [if_neg hcol] at hfd
        exact (fresh_spec hfresh
          (Or.inr (Or.inl (List.mem_of_mem_eraseIdx hd))) (Or.inl hkL)).2 hfd
    have h3 : List.count (key ++ "_right") ["_merge"] = 0 :=
      count_singleton_ne _ _
        (fresh_spec hfresh (Or.inr (Or.inr rfl)) (Or.inl hkL)).2
    rw [List.count_append, List.count_append, h1, h2, h3]

/-- Headers with a shared non-key column NOME, for the column-collision
witness. -/
def exLeft2 : Table := { cols := ["MATRICULA", "NOME", "X"], rows := [] }

/-- Right-side header sharing NOME with `exLeft2`. -/
def exRight2 : Table := { cols := ["MATRICULA", "NOME", "Y"], rows := [] }

/-- C5 witness: with NOME shared by both headers, the join has one
NOME_left, one NOME_right, no bare NOME, the non-colliding X once, and the
key MATRICULA once. -/
theorem merge_columns_spec_witness :
    (pd_merge_outer exLeft2 exRight2 "MATRICULA").cols.count ("NOME" ++ "_left") = 1 ∧
    (pd_merge_outer exLeft2 exRight2 "MATRICULA").cols.count ("NOME" ++ "_right") = 1 ∧
    (pd_merge_outer exLeft2 exRight2 "MATRICULA").cols.count "NOME" = 0 ∧
    (pd_merge_outer exLeft2 exRight2 "MATRICULA").cols.count "X" = 1 ∧
    (pd_merge_outer exLeft2 exRight2 "MATRICULA").cols.count "MATRICULA" = 1 := by
  have h := merge_columns_spec exLeft2 exRight2 "MATRICULA"
    (by decide) (by decide) (by decide) (by decide)
  obtain ⟨h1, h2, _, h4, _, _⟩ := h
  have hc := h1 "NOME" (by decide) (by decide) (by decide)
  exact ⟨hc.1, hc.2.1, hc.2.2, h2 "X" (by decide) (by decide) (by decide), h4⟩

end MergeExcel
